import Mathlib

/-!
# Verification of the octree spatial index (`src/rust/src/octree.rs`)

The repository declares the data model of a bucketed octree: an indexing
point type `Point<T>(T, T, T)` and a dense storage table
`Octree { data: Box<[Vec<Point>; 1 << (3 * Depth)]> }`, with a constructor
`Octree::new(points)` whose body is an unimplemented sketch.  The coordinate
codec, table operations and neighbor arithmetic exist in the repository only
as the specification's description, so they are modelled here faithfully from
the spec's words; the declared structures and the bucket-count expression
`1 << (3 * Depth)` are embedded from the source.

Machine integers are modelled as `Nat` with explicit `% 2 ^ w` where
fixed-width overflow matters.
-/

namespace OctreeSpec

/-- Error kinds of the core, as listed by the error-handling design:
`InvalidCoordinate`, `InvalidDepth`, `NotFound`, `Overflow`. -/
inductive OctreeError where
  | InvalidCoordinate
  | InvalidDepth
  | NotFound
  | Overflow
deriving DecidableEq, Repr

/-- Embeds `struct Point<T : i32>(T, T, T)` (src/rust/src/octree.rs, line 76):
a positional record of three coordinates of the generic coordinate type, and
nothing else. -/
structure Point (T : Type) where
  x : T
  y : T
  z : T
deriving DecidableEq, Repr

/-- The coordinate triple carried by a `Point`, in field order. -/
def Point.toTriple {T : Type} (p : Point T) : T × T × T :=
  (p.x, p.y, p.z)

/-- The spec's data model of a point, stated for comparison with the source's
`Point`: a coordinate triple that additionally "carries an opaque reference to
caller payload data".  The opaque reference is modelled as an abstract
identifier. -/
structure SpecPoint where
  x : Nat
  y : Nat
  z : Nat
  payloadRef : Nat
deriving DecidableEq, Repr

/-- The unique coordinate-preserving image of a spec point in the source's
`Point` type, which has only the three coordinate fields to receive it. -/
def SpecPoint.toCodePoint (p : SpecPoint) : Point Nat :=
  ⟨p.x, p.y, p.z⟩

/-- Modelled from the spec (the coordinate codec is absent from src/):
`encode(x, y, z) → address` — "for bit position i from B−1 down to 0, emit
bit i of x, then bit i of y, then bit i of z; concatenate in that order to
form the 3B-bit address (MSB first)".  Peeling the least-significant bit of
each axis produces the lowest 3-bit group of the address, since bit 0 is
emitted last. -/
def encode : (B x y z : Nat) → Nat
  | 0, _, _, _ => 0
  | B + 1, x, y, z =>
      8 * encode B (x / 2) (y / 2) (z / 2) + (4 * (x % 2) + 2 * (y % 2) + z % 2)

/-- Modelled from the spec (the coordinate codec is absent from src/):
`decode(address) → (x, y, z)`, the exact inverse of `encode`: the lowest
3-bit group of the address holds bit 0 of x, y, z. -/
def decode : (B a : Nat) → Nat × Nat × Nat
  | 0, _ => (0, 0, 0)
  | B + 1, a =>
      let r := decode B (a / 8)
      (2 * r.1 + a / 4 % 2, 2 * r.2.1 + a / 2 % 2, 2 * r.2.2 + a % 2)

/-- Modelled from the spec (the coordinate codec is absent from src/):
`encode` with its domain check — "Fails with `InvalidCoordinate` if any of
x, y, z ≥ 2^B". -/
def encodeChecked (B x y z : Nat) : Except OctreeError Nat :=
  if 2 ^ B ≤ x ∨ 2 ^ B ≤ y ∨ 2 ^ B ≤ z then
    .error .InvalidCoordinate
  else
    .ok (encode B x y z)

/-- Modelled from the spec: `prefix(address, depth)`, the top `3·depth` bits
of a 3B-bit address. -/
def prefixAt (B d a : Nat) : Nat :=
  a / 2 ^ (3 * (B - d))

/-- The address of a point: the bit-interleaving of its coordinates. -/
def addrOf (B : Nat) (p : Point Nat) : Nat :=
  encode B p.x p.y p.z

/-- The leaf-bucket index of a point: the top `3·D` bits of its address. -/
def leafIdx (B D : Nat) (p : Point Nat) : Nat :=
  prefixAt B D (addrOf B p)

/-- Bit width of `usize`, the Rust array-length type (64-bit target). -/
def usizeBits : Nat := 64

/-- Fixed-width left shift at `usize` width: Rust's release-mode `<<` masks
the shift amount by the bit width and truncates the result to the width. -/
def shlUsize (x k : Nat) : Nat :=
  x * 2 ^ (k % usizeBits) % 2 ^ usizeBits

/-- Embeds the bucket-array length expression `1 << (3 * Depth)` of
`struct Octree` (src/rust/src/octree.rs, line 80): `Depth` is a `u8`, so the
multiplication `3 * Depth` is performed at `u8` width (mod 2^8), and the
shift is performed at the array-length type `usize`.  (In debug/const
contexts an overflowing shift is rejected instead of masked; either way it
does not produce the mathematical power.) -/
def bucketCount (Depth : Nat) : Nat :=
  shlUsize 1 (3 * Depth % 2 ^ 8)

/-- Embeds `struct Octree { data: Box<[Vec<Point>; 1 << (3 * Depth)]> }`
(src/rust/src/octree.rs, lines 79–81): the dense table of buckets, addressed
by leaf prefix.  The configured coordinate bit-width `B` and subdivision
depth `D` of the spec's data model are carried as fields; the array of
`2^(3D)` buckets is modelled as a list of lists. -/
structure Octree where
  B : Nat
  D : Nat
  data : List (List (Point Nat))
deriving DecidableEq, Repr

namespace Octree

/-- The bucket stored at index `i` (empty when out of range). -/
def bucket (t : Octree) (i : Nat) : List (Point Nat) :=
  t.data.getD i []

/-- All points held by the tree, in table order. -/
def points (t : Octree) : List (Point Nat) :=
  t.data.flatten

/-- The table of `2^(3D)` empty buckets. -/
def emptyTable (B D : Nat) : Octree :=
  ⟨B, D, List.replicate (2 ^ (3 * D)) []⟩

/-- Modelled from the spec (the table operations are absent from src/):
place one point — "computes the point's leaf prefix and appends to that
bucket". -/
def place (t : Octree) (p : Point Nat) : Octree :=
  { t with
    data := t.data.set (leafIdx t.B t.D p)
      (t.bucket (leafIdx t.B t.D p) ++ [p]) }

/-- Modelled from the spec (the builder's body is an unimplemented comment in
`Octree::new`, src/rust/src/octree.rs line 89): `build(points, D)` — "for
each point, computes its address and target leaf bucket via the Codec, then
appends". -/
def build (B D : Nat) (pts : List (Point Nat)) : Octree :=
  pts.foldl place (emptyTable B D)

/-- Modelled from the spec (construction checks are absent from src/):
given bit-width B, depth D and the input points, "produce a populated tree;
fails with `Overflow` if 3B exceeds the representable address width, or
`InvalidDepth` if D > B".  `W` is the representable address width. -/
def new (W B D : Nat) (pts : List (Point Nat)) : Except OctreeError Octree :=
  if W < 3 * B then .error .Overflow
  else if B < D then .error .InvalidDepth
  else .ok (build B D pts)

/-- Modelled from the spec (the table operations are absent from src/):
`insert(point)` appends to the point's leaf bucket, failing when a
coordinate exceeds the configured domain. -/
def insert (t : Octree) (p : Point Nat) : Except OctreeError Octree :=
  if p.x < 2 ^ t.B ∧ p.y < 2 ^ t.B ∧ p.z < 2 ^ t.B then .ok (t.place p)
  else .error .InvalidCoordinate

/-- Modelled from the spec (the table operations are absent from src/):
`remove(point)` — "locates and removes a matching entry from its bucket by
value. Fails with `NotFound` if absent." -/
def remove (t : Octree) (p : Point Nat) : Except OctreeError Octree :=
  if p ∈ t.bucket (leafIdx t.B t.D p) then
    .ok { t with
      data := t.data.set (leafIdx t.B t.D p)
        ((t.bucket (leafIdx t.B t.D p)).erase p) }
  else .error .NotFound

/-- Modelled from the spec (the table operations are absent from src/):
`query(prefix, depth)` returns the concatenation of all leaf buckets lying
under the depth-`depth` node `pfx`, i.e. whose index has top `3·depth` bits
equal to `pfx`. -/
def query (t : Octree) (pfx depth : Nat) : List (Point Nat) :=
  ((List.range t.data.length).filter
    fun i => i / 2 ^ (3 * (t.D - depth)) = pfx).flatMap t.bucket

/-- The structural invariant of the dense table: a valid configuration
(D ≤ B), the declared bucket count, and every stored point sitting in the
bucket addressed by its own leaf prefix. -/
def WellFormed (t : Octree) : Prop :=
  t.D ≤ t.B ∧ t.data.length = 2 ^ (3 * t.D) ∧
  ∀ i, ∀ p ∈ t.bucket i, leafIdx t.B t.D p = i

/-- Trees obtainable through the public interface: successful construction
followed by any sequence of successful mutating operations. -/
inductive Reachable : Octree → Prop where
  | of_new (W B D : Nat) (pts : List (Point Nat)) (t : Octree) :
      new W B D pts = .ok t → Reachable t
  | of_insert (t t' : Octree) (p : Point Nat) :
      Reachable t → insert t p = .ok t' → Reachable t'
  | of_remove (t t' : Octree) (p : Point Nat) :
      Reachable t → remove t p = .ok t' → Reachable t'

end Octree

/-- Two values differing by exactly one. -/
def Adj1 (u v : Nat) : Prop :=
  v = u + 1 ∨ v + 1 = u

/-- Modelled from the spec (the neighbor locator is absent from src/):
`faceNeighbors(address, depth)` — "up to 6 candidates, each address obtained
by incrementing or decrementing exactly one axis's value by 1 at the given
depth … Candidates whose resulting axis value falls outside
`[0, 2^depth − 1]` are excluded — boundaries clip, they do not wrap." -/
def faceNeighbors (a depth : Nat) : List Nat :=
  let n := 2 ^ depth
  let c := decode depth a
  (if c.1 + 1 < n then [encode depth (c.1 + 1) c.2.1 c.2.2] else []) ++
  (if 1 ≤ c.1 then [encode depth (c.1 - 1) c.2.1 c.2.2] else []) ++
  (if c.2.1 + 1 < n then [encode depth c.1 (c.2.1 + 1) c.2.2] else []) ++
  (if 1 ≤ c.2.1 then [encode depth c.1 (c.2.1 - 1) c.2.2] else []) ++
  (if c.2.2 + 1 < n then [encode depth c.1 c.2.1 (c.2.2 + 1)] else []) ++
  (if 1 ≤ c.2.2 then [encode depth c.1 c.2.1 (c.2.2 - 1)] else [])

/-- The face-adjacency relation of the glossary, on 3·depth-bit addresses:
"a cell differing by ±1 in exactly one axis at the same depth". -/
def FaceAdj (a depth b : Nat) : Prop :=
  b < 2 ^ (3 * depth) ∧
  ((Adj1 (decode depth a).1 (decode depth b).1 ∧
      (decode depth b).2.1 = (decode depth a).2.1 ∧
      (decode depth b).2.2 = (decode depth a).2.2) ∨
   ((decode depth b).1 = (decode depth a).1 ∧
      Adj1 (decode depth a).2.1 (decode depth b).2.1 ∧
      (decode depth b).2.2 = (decode depth a).2.2) ∨
   ((decode depth b).1 = (decode depth a).1 ∧
      (decode depth b).2.1 = (decode depth a).2.1 ∧
      Adj1 (decode depth a).2.2 (decode depth b).2.2))

/-! ## Codec lemmas -/

theorem encode_lt (B x y z : Nat) : encode B x y z < 2 ^ (3 * B) := by
  induction B generalizing x y z with
  | zero => simp [encode]
  | succ B ih =>
      have h := ih (x / 2) (y / 2) (z / 2)
      have hx : x % 2 < 2 := Nat.mod_lt _ (by omega)
      have hy : y % 2 < 2 := Nat.mod_lt _ (by omega)
      have hz : z % 2 < 2 := Nat.mod_lt _ (by omega)
      have hpow : 2 ^ (3 * (B + 1)) = 8 * 2 ^ (3 * B) := by
        rw [Nat.mul_succ, Nat.pow_add]
        ring
      simp only [encode, hpow]
      omega

theorem decode_encode (B x y z : Nat) (hx : x < 2 ^ B) (hy : y < 2 ^ B)
    (hz : z < 2 ^ B) : decode B (encode B x y z) = (x, y, z) := by
  induction B generalizing x y z with
  | zero =>
      simp only [Nat.pow_zero, Nat.lt_one_iff] at hx hy hz
      simp [decode, encode, hx, hy, hz]
  | succ B ih =>
      have hx2 : x / 2 < 2 ^ B := by
        rw [Nat.pow_succ] at hx; omega
      have hy2 : y / 2 < 2 ^ B := by
        rw [Nat.pow_succ] at hy; omega
      have hz2 : z / 2 < 2 ^ B := by
        rw [Nat.pow_succ] at hz; omega
      have hdiv :
          (8 * encode B (x / 2) (y / 2) (z / 2) +
            (4 * (x % 2) + 2 * (y % 2) + z % 2)) / 8 =
          encode B (x / 2) (y / 2) (z / 2) := by omega
      simp only [encode, decode, hdiv, ih (x / 2) (y / 2) (z / 2) hx2 hy2 hz2]
      refine Prod.ext ?_ (Prod.ext ?_ ?_) <;> simp only <;> omega

theorem decode_fst_lt (B a : Nat) : (decode B a).1 < 2 ^ B := by
  induction B generalizing a with
  | zero => simp [decode]
  | succ B ih =>
      have h := ih (a / 8)
      simp only [decode, Nat.pow_succ]
      omega

theorem decode_snd_fst_lt (B a : Nat) : (decode B a).2.1 < 2 ^ B := by
  induction B generalizing a with
  | zero => simp [decode]
  | succ B ih =>
      have h := ih (a / 8)
      simp only [decode, Nat.pow_succ]
      omega

theorem decode_snd_snd_lt (B a : Nat) : (decode B a).2.2 < 2 ^ B := by
  induction B generalizing a with
  | zero => simp [decode]
  | succ B ih =>
      have h := ih (a / 8)
      simp only [decode, Nat.pow_succ]
      omega

theorem encode_decode (B a : Nat) (ha : a < 2 ^ (3 * B)) :
    encode B (decode B a).1 (decode B a).2.1 (decode B a).2.2 = a := by
  induction B generalizing a with
  | zero =>
      simp only [Nat.mul_zero, Nat.pow_zero, Nat.lt_one_iff] at ha
      simp [decode, encode, ha]
  | succ B ih =>
      have hpow : 2 ^ (3 * (B + 1)) = 8 * 2 ^ (3 * B) := by
        rw [Nat.mul_succ, Nat.pow_add]
        ring
      have ha8 : a / 8 < 2 ^ (3 * B) := by
        rw [hpow] at ha; omega
      have ihc := ih (a / 8) ha8
      simp only [decode, encode]
      have e1 : (2 * (decode B (a / 8)).1 + a / 4 % 2) / 2 =
          (decode B (a / 8)).1 := by omega
      have e2 : (2 * (decode B (a / 8)).2.1 + a / 2 % 2) / 2 =
          (decode B (a / 8)).2.1 := by omega
      have e3 : (2 * (decode B (a / 8)).2.2 + a % 2) / 2 =
          (decode B (a / 8)).2.2 := by omega
      have m1 : (2 * (decode B (a / 8)).1 + a / 4 % 2) % 2 = a / 4 % 2 := by
        omega
      have m2 : (2 * (decode B (a / 8)).2.1 + a / 2 % 2) % 2 = a / 2 % 2 := by
        omega
      have m3 : (2 * (decode B (a / 8)).2.2 + a % 2) % 2 = a % 2 := by omega
      rw [e1, e2, e3, m1, m2, m3, ihc]
      omega

/-! ## Table lemmas -/

theorem leafIdx_lt_of_le (B D : Nat) (hBD : D ≤ B) (p : Point Nat) :
    leafIdx B D p < 2 ^ (3 * D) := by
  have ha : addrOf B p < 2 ^ (3 * B) := encode_lt B p.x p.y p.z
  have hpow : 2 ^ (3 * D) * 2 ^ (3 * (B - D)) = 2 ^ (3 * B) := by
    rw [← Nat.pow_add]
    congr 1
    omega
  unfold leafIdx prefixAt
  refine (Nat.div_lt_iff_lt_mul (Nat.pow_pos (by omega))).mpr ?_
  rw [hpow]
  exact ha

theorem prefixAt_div (B D d a : Nat) (hd : d ≤ D) (hDB : D ≤ B) :
    prefixAt B D a / 2 ^ (3 * (D - d)) = prefixAt B d a := by
  unfold prefixAt
  rw [Nat.div_div_eq_div_mul, ← pow_add]
  have he : 3 * (B - D) + 3 * (D - d) = 3 * (B - d) := by omega
  rw [he]

theorem bucket_emptyTable (B D i : Nat) :
    (Octree.emptyTable B D).bucket i = [] := by
  unfold Octree.bucket Octree.emptyTable
  simp only [List.getD_eq_getElem?_getD, List.getElem?_replicate]
  split <;> rfl

theorem bucket_setBucket (t : Octree) (j : Nat) (b : List (Point Nat))
    (hj : j < t.data.length) (i : Nat) :
    (Octree.mk t.B t.D (t.data.set j b)).bucket i =
      if i = j then b else t.bucket i := by
  unfold Octree.bucket
  by_cases h : i = j
  · subst h
    simp [List.getD_eq_getElem?_getD, List.getElem?_set_self hj]
  · simp [List.getD_eq_getElem?_getD, List.getElem?_set_ne (Ne.symm h), h]

theorem bucket_place (t : Octree) (p : Point Nat)
    (hfit : leafIdx t.B t.D p < t.data.length) (i : Nat) :
    (t.place p).bucket i =
      if i = leafIdx t.B t.D p then t.bucket (leafIdx t.B t.D p) ++ [p]
      else t.bucket i := by
  unfold Octree.place
  exact bucket_setBucket t _ _ hfit i

theorem place_length (t : Octree) (p : Point Nat) :
    (t.place p).data.length = t.data.length := by
  simp [Octree.place]

theorem foldl_place_B (pts : List (Point Nat)) (t : Octree) :
    (pts.foldl Octree.place t).B = t.B := by
  induction pts generalizing t with
  | nil => rfl
  | cons p pts ih => simpa using ih (t.place p)

theorem foldl_place_D (pts : List (Point Nat)) (t : Octree) :
    (pts.foldl Octree.place t).D = t.D := by
  induction pts generalizing t with
  | nil => rfl
  | cons p pts ih => simpa using ih (t.place p)

theorem foldl_place_length (pts : List (Point Nat)) (t : Octree) :
    (pts.foldl Octree.place t).data.length = t.data.length := by
  induction pts generalizing t with
  | nil => rfl
  | cons p pts ih =>
      rw [List.foldl_cons, ih (t.place p), place_length]

theorem foldl_place_bucket (pts : List (Point Nat)) (t : Octree)
    (hBD : t.D ≤ t.B) (hlen : t.data.length = 2 ^ (3 * t.D)) (i : Nat) :
    (pts.foldl Octree.place t).bucket i =
      t.bucket i ++ pts.filter (fun p => leafIdx t.B t.D p = i) := by
  induction pts generalizing t with
  | nil => simp
  | cons p pts ih =>
      have hfit : leafIdx t.B t.D p < t.data.length := by
        rw [hlen]
        exact leafIdx_lt_of_le t.B t.D hBD p
      have hlen' : (t.place p).data.length = 2 ^ (3 * (t.place p).D) := by
        rw [place_length, hlen]; rfl
      have hBp : (t.place p).B = t.B := rfl
      have hDp : (t.place p).D = t.D := rfl
      have hrec := ih (t.place p) hBD hlen'
      rw [hBp, hDp] at hrec
      rw [List.foldl_cons, hrec, bucket_place t p hfit i]
      by_cases h : leafIdx t.B t.D p = i
      · rw [if_pos h.symm, h, List.filter_cons_of_pos (by simpa using h),
          List.append_assoc]
        rfl
      · rw [if_neg (fun hh => h hh.symm),
          List.filter_cons_of_neg (by simpa using h)]

theorem build_B (B D : Nat) (pts : List (Point Nat)) :
    (Octree.build B D pts).B = B :=
  foldl_place_B pts (Octree.emptyTable B D)

theorem build_D (B D : Nat) (pts : List (Point Nat)) :
    (Octree.build B D pts).D = D :=
  foldl_place_D pts (Octree.emptyTable B D)

theorem build_length (B D : Nat) (pts : List (Point Nat)) :
    (Octree.build B D pts).data.length = 2 ^ (3 * D) := by
  unfold Octree.build
  rw [foldl_place_length]
  simp [Octree.emptyTable]

theorem build_bucket (B D : Nat) (hBD : D ≤ B) (pts : List (Point Nat))
    (i : Nat) :
    (Octree.build B D pts).bucket i =
      pts.filter (fun p => leafIdx B D p = i) := by
  unfold Octree.build
  rw [foldl_place_bucket pts (Octree.emptyTable B D) hBD
    (by simp [Octree.emptyTable]) i, bucket_emptyTable]
  rfl

theorem wellFormed_build (B D : Nat) (hBD : D ≤ B) (pts : List (Point Nat)) :
    (Octree.build B D pts).WellFormed := by
  refine ⟨?_, ?_, ?_⟩
  · rw [build_B, build_D]
    exact hBD
  · rw [build_length, build_D]
  · intro i p hp
    rw [build_bucket B D hBD pts i] at hp
    have := (List.mem_filter.mp hp).2
    rw [build_B, build_D]
    simpa using this

theorem wellFormed_place (t : Octree) (hWF : t.WellFormed) (p : Point Nat) :
    (t.place p).WellFormed := by
  obtain ⟨hBD, hlen, hmem⟩ := hWF
  have hfit : leafIdx t.B t.D p < t.data.length := by
    rw [hlen]
    exact leafIdx_lt_of_le t.B t.D hBD p
  refine ⟨hBD, by rw [place_length, hlen]; rfl, ?_⟩
  intro i q hq
  rw [bucket_place t p hfit i] at hq
  show leafIdx t.B t.D q = i
  by_cases h : i = leafIdx t.B t.D p
  · rw [if_pos h] at hq
    rcases List.mem_append.mp hq with h1 | h2
    · rw [h]
      exact hmem _ q h1
    · have hqp : q = p := by simpa using h2
      rw [hqp, h]
  · rw [if_neg h] at hq
    exact hmem i q hq

theorem wellFormed_removed (t t' : Octree) (p : Point Nat)
    (hok : t.remove p = .ok t') (hWF : t.WellFormed) : t'.WellFormed := by
  obtain ⟨hBD, hlen, hmem⟩ := hWF
  unfold Octree.remove at hok
  split at hok
  case isFalse => exact absurd hok (by simp)
  case isTrue hin =>
    have hfit : leafIdx t.B t.D p < t.data.length := by
      rw [hlen]
      exact leafIdx_lt_of_le t.B t.D hBD p
    have ht' : t' = Octree.mk t.B t.D
        (t.data.set (leafIdx t.B t.D p)
          ((t.bucket (leafIdx t.B t.D p)).erase p)) := by
      injection hok with h
      exact h.symm
    subst ht'
    refine ⟨hBD, by simpa using hlen, ?_⟩
    intro i q hq
    rw [bucket_setBucket t _ _ hfit i] at hq
    show leafIdx t.B t.D q = i
    by_cases h : i = leafIdx t.B t.D p
    · rw [if_pos h] at hq
      rw [h]
      exact hmem _ q (List.mem_of_mem_erase hq)
    · rw [if_neg h] at hq
      exact hmem i q hq

theorem reachable_wellFormed (t : Octree) (h : Octree.Reachable t) :
    t.WellFormed := by
  induction h with
  | of_new W B D pts t hok =>
      unfold Octree.new at hok
      split at hok
      · exact absurd hok (by simp)
      · split at hok
        case isFalse hDB =>
          have hbuild : Octree.build B D pts = t := by
            injection hok
          rw [← hbuild]
          exact wellFormed_build B D (by omega) pts
        case isTrue => exact absurd hok (by simp)
  | of_insert t t' p _ hok ih =>
      unfold Octree.insert at hok
      split at hok
      · have hplace : t.place p = t' := by
          injection hok
        rw [← hplace]
        exact wellFormed_place t ih p
      · exact absurd hok (by simp)
  | of_remove t t' p _ hok ih => exact wellFormed_removed t t' p hok ih

theorem mem_points_iff (t : Octree) (q : Point Nat) :
    q ∈ t.points ↔ ∃ i, q ∈ t.bucket i := by
  unfold Octree.points
  rw [List.mem_flatten]
  constructor
  · rintro ⟨l, hl, hq⟩
    obtain ⟨i, hi, hget⟩ := List.mem_iff_getElem.mp hl
    refine ⟨i, ?_⟩
    unfold Octree.bucket
    rw [List.getD_eq_getElem?_getD, List.getElem?_eq_getElem hi, hget]
    exact hq
  · rintro ⟨i, hq⟩
    by_cases hi : i < t.data.length
    · refine ⟨t.bucket i, ?_, hq⟩
      unfold Octree.bucket
      rw [List.getD_eq_getElem?_getD, List.getElem?_eq_getElem hi]
      exact List.getElem_mem hi
    · exfalso
      unfold Octree.bucket at hq
      rw [List.getD_eq_getElem?_getD, List.getElem?_eq_none (by omega)] at hq
      simp at hq

theorem filter_range_div_eq (n k q : Nat) (hk : 0 < k)
    (hqn : (q + 1) * k ≤ n) :
    (List.range n).filter (fun i => i / k = q) = List.range' (q * k) k := by
  have hqk : (q + 1) * k = q * k + k := by ring
  have hsub1 : List.range' (q * k) k ++
      List.range' (q * k + k) (n - (q * k + k)) =
      List.range' (q * k) (n - q * k) := by
    rw [List.range'_append_1]
    congr 1
    omega
  have hsub2 : List.range' 0 (q * k) ++ List.range' (q * k) (n - q * k) =
      List.range' 0 n := by
    have h := List.range'_append_1 0 (q * k) (n - q * k)
    rw [Nat.zero_add] at h
    rw [h]
    congr 1
    omega
  rw [List.range_eq_range', ← hsub2, ← hsub1, List.filter_append,
    List.filter_append]
  have hf1 : (List.range' 0 (q * k)).filter (fun i => i / k = q) = [] := by
    rw [List.filter_eq_nil_iff]
    intro x hx
    rw [List.mem_range'] at hx
    obtain ⟨i, hi, hxi⟩ := hx
    have hxlt : x < q * k := by omega
    have hdlt : x / k < q := (Nat.div_lt_iff_lt_mul hk).mpr hxlt
    simp only [decide_eq_true_eq]
    omega
  have hf2 : (List.range' (q * k) k).filter (fun i => i / k = q) =
      List.range' (q * k) k := by
    rw [List.filter_eq_self]
    intro x hx
    rw [List.mem_range'] at hx
    obtain ⟨i, hi, hxi⟩ := hx
    have hdivq : x / k = q := by
      subst hxi
      rw [show q * k + 1 * i = k * q + i by ring, Nat.mul_add_div hk,
        Nat.div_eq_of_lt (by omega)]
      omega
    simp [hdivq]
  have hf3 : (List.range' (q * k + k) (n - (q * k + k))).filter
      (fun i => i / k = q) = [] := by
    rw [List.filter_eq_nil_iff]
    intro x hx
    rw [List.mem_range'] at hx
    obtain ⟨i, hi, hxi⟩ := hx
    have hge : (q + 1) * k ≤ x := by omega
    have hdge : q + 1 ≤ x / k := (Nat.le_div_iff_mul_le hk).mpr hge
    simp only [decide_eq_true_eq]
    omega
  rw [hf1, hf2, hf3]
  simp

/-! ## Bit-level characterization of the interleaved address -/

theorem encode_bits (B x y z i : Nat) (hi : i < B) :
    encode B x y z / 2 ^ (3 * i) % 2 = z / 2 ^ i % 2 ∧
    encode B x y z / 2 ^ (3 * i + 1) % 2 = y / 2 ^ i % 2 ∧
    encode B x y z / 2 ^ (3 * i + 2) % 2 = x / 2 ^ i % 2 := by
  induction B generalizing x y z i with
  | zero => omega
  | succ B ih =>
      have hkey : encode (B + 1) x y z =
          8 * encode B (x / 2) (y / 2) (z / 2) +
            (4 * (x % 2) + 2 * (y % 2) + z % 2) := rfl
      cases i with
      | zero =>
          have h0 : (2 : Nat) ^ (3 * 0) = 1 := rfl
          have h1 : (2 : Nat) ^ (3 * 0 + 1) = 2 := rfl
          have h2 : (2 : Nat) ^ (3 * 0 + 2) = 4 := rfl
          rw [hkey, h0, h1, h2]
          omega
      | succ i' =>
          have hi' : i' < B := by omega
          obtain ⟨ih1, ih2, ih3⟩ := ih (x / 2) (y / 2) (z / 2) i' hi'
          have hdiv8 : encode (B + 1) x y z / 8 =
              encode B (x / 2) (y / 2) (z / 2) := by
            rw [hkey]; omega
          have hz2 : z / 2 / 2 ^ i' = z / 2 ^ (i' + 1) := by
            rw [Nat.div_div_eq_div_mul]
            congr 1
            rw [pow_succ]
            ring
          have hy2 : y / 2 / 2 ^ i' = y / 2 ^ (i' + 1) := by
            rw [Nat.div_div_eq_div_mul]
            congr 1
            rw [pow_succ]
            ring
          have hx2 : x / 2 / 2 ^ i' = x / 2 ^ (i' + 1) := by
            rw [Nat.div_div_eq_div_mul]
            congr 1
            rw [pow_succ]
            ring
          refine ⟨?_, ?_, ?_⟩
          · have hp : (2 : Nat) ^ (3 * (i' + 1)) = 8 * 2 ^ (3 * i') := by
              have he : 3 * (i' + 1) = 3 * i' + 3 := by ring
              rw [he, pow_add]
              ring
            rw [hp, ← Nat.div_div_eq_div_mul, hdiv8, ih1, hz2]
          · have hp : (2 : Nat) ^ (3 * (i' + 1) + 1) = 8 * 2 ^ (3 * i' + 1) := by
              have he : 3 * (i' + 1) + 1 = (3 * i' + 1) + 3 := by ring
              rw [he, pow_add]
              ring
            rw [hp, ← Nat.div_div_eq_div_mul, hdiv8, ih2, hy2]
          · have hp : (2 : Nat) ^ (3 * (i' + 1) + 2) = 8 * 2 ^ (3 * i' + 2) := by
              have he : 3 * (i' + 1) + 2 = (3 * i' + 2) + 3 := by ring
              rw [he, pow_add]
              ring
            rw [hp, ← Nat.div_div_eq_div_mul, hdiv8, ih3, hx2]

/-! ## Neighbor lemmas -/

theorem mem_ite_singleton {c : Prop} [Decidable c] {u b : Nat} :
    b ∈ (if c then [u] else ([] : List Nat)) ↔ c ∧ b = u := by
  split
  case isTrue h => simp [h]
  case isFalse h => simp [h]

theorem mem_faceNeighbors_iff (a depth b : Nat) :
    b ∈ faceNeighbors a depth ↔
      ((decode depth a).1 + 1 < 2 ^ depth ∧
        b = encode depth ((decode depth a).1 + 1) (decode depth a).2.1
          (decode depth a).2.2) ∨
      (1 ≤ (decode depth a).1 ∧
        b = encode depth ((decode depth a).1 - 1) (decode depth a).2.1
          (decode depth a).2.2) ∨
      ((decode depth a).2.1 + 1 < 2 ^ depth ∧
        b = encode depth (decode depth a).1 ((decode depth a).2.1 + 1)
          (decode depth a).2.2) ∨
      (1 ≤ (decode depth a).2.1 ∧
        b = encode depth (decode depth a).1 ((decode depth a).2.1 - 1)
          (decode depth a).2.2) ∨
      ((decode depth a).2.2 + 1 < 2 ^ depth ∧
        b = encode depth (decode depth a).1 (decode depth a).2.1
          ((decode depth a).2.2 + 1)) ∨
      (1 ≤ (decode depth a).2.2 ∧
        b = encode depth (decode depth a).1 (decode depth a).2.1
          ((decode depth a).2.2 - 1)) := by
  simp only [faceNeighbors, List.mem_append, mem_ite_singleton]
  tauto

theorem faceAdj_iff (a depth b : Nat) (_ha : a < 2 ^ (3 * depth)) :
    FaceAdj a depth b ↔
      ((decode depth a).1 + 1 < 2 ^ depth ∧
        b = encode depth ((decode depth a).1 + 1) (decode depth a).2.1
          (decode depth a).2.2) ∨
      (1 ≤ (decode depth a).1 ∧
        b = encode depth ((decode depth a).1 - 1) (decode depth a).2.1
          (decode depth a).2.2) ∨
      ((decode depth a).2.1 + 1 < 2 ^ depth ∧
        b = encode depth (decode depth a).1 ((decode depth a).2.1 + 1)
          (decode depth a).2.2) ∨
      (1 ≤ (decode depth a).2.1 ∧
        b = encode depth (decode depth a).1 ((decode depth a).2.1 - 1)
          (decode depth a).2.2) ∨
      ((decode depth a).2.2 + 1 < 2 ^ depth ∧
        b = encode depth (decode depth a).1 (decode depth a).2.1
          ((decode depth a).2.2 + 1)) ∨
      (1 ≤ (decode depth a).2.2 ∧
        b = encode depth (decode depth a).1 (decode depth a).2.1
          ((decode depth a).2.2 - 1)) := by
  have hax : (decode depth a).1 < 2 ^ depth := decode_fst_lt depth a
  have hay : (decode depth a).2.1 < 2 ^ depth := decode_snd_fst_lt depth a
  have haz : (decode depth a).2.2 < 2 ^ depth := decode_snd_snd_lt depth a
  constructor
  · intro h
    unfold FaceAdj at h
    obtain ⟨hb, hcase⟩ := h
    have hbx : (decode depth b).1 < 2 ^ depth := decode_fst_lt depth b
    have hby : (decode depth b).2.1 < 2 ^ depth := decode_snd_fst_lt depth b
    have hbz : (decode depth b).2.2 < 2 ^ depth := decode_snd_snd_lt depth b
    have hbenc : encode depth (decode depth b).1 (decode depth b).2.1
        (decode depth b).2.2 = b := encode_decode depth b hb
    rcases hcase with ⟨hadj, hy', hz'⟩ | ⟨hx', hadj, hz'⟩ | ⟨hx', hy', hadj⟩
    · rcases hadj with h1 | h1
      · refine Or.inl ⟨by omega, ?_⟩
        rw [← hbenc, h1, hy', hz']
      · refine Or.inr (Or.inl ⟨by omega, ?_⟩)
        rw [← hbenc, hy', hz',
          show (decode depth a).1 - 1 = (decode depth b).1 by omega]
    · rcases hadj with h1 | h1
      · refine Or.inr (Or.inr (Or.inl ⟨by omega, ?_⟩))
        rw [← hbenc, hx', h1, hz']
      · refine Or.inr (Or.inr (Or.inr (Or.inl ⟨by omega, ?_⟩)))
        rw [← hbenc, hx', hz',
          show (decode depth a).2.1 - 1 = (decode depth b).2.1 by omega]
    · rcases hadj with h1 | h1
      · refine Or.inr (Or.inr (Or.inr (Or.inr (Or.inl ⟨by omega, ?_⟩))))
        rw [← hbenc, hx', hy', h1]
      · refine Or.inr (Or.inr (Or.inr (Or.inr (Or.inr ⟨by omega, ?_⟩))))
        rw [← hbenc, hx', hy',
          show (decode depth a).2.2 - 1 = (decode depth b).2.2 by omega]
  · rintro (⟨hc, hb⟩ | ⟨hc, hb⟩ | ⟨hc, hb⟩ | ⟨hc, hb⟩ | ⟨hc, hb⟩ | ⟨hc, hb⟩) <;>
      subst hb <;> unfold FaceAdj
    · have hd := decode_encode depth ((decode depth a).1 + 1)
        (decode depth a).2.1 (decode depth a).2.2 hc hay haz
      refine ⟨encode_lt depth _ _ _, ?_⟩
      rw [hd]
      exact Or.inl ⟨Or.inl rfl, rfl, rfl⟩
    · have hd := decode_encode depth ((decode depth a).1 - 1)
        (decode depth a).2.1 (decode depth a).2.2 (by omega) hay haz
      refine ⟨encode_lt depth _ _ _, ?_⟩
      rw [hd]
      refine Or.inl ⟨Or.inr ?_, rfl, rfl⟩
      show (decode depth a).1 - 1 + 1 = (decode depth a).1
      omega
    · have hd := decode_encode depth (decode depth a).1
        ((decode depth a).2.1 + 1) (decode depth a).2.2 hax hc haz
      refine ⟨encode_lt depth _ _ _, ?_⟩
      rw [hd]
      exact Or.inr (Or.inl ⟨rfl, Or.inl rfl, rfl⟩)
    · have hd := decode_encode depth (decode depth a).1
        ((decode depth a).2.1 - 1) (decode depth a).2.2 hax (by omega) haz
      refine ⟨encode_lt depth _ _ _, ?_⟩
      rw [hd]
      refine Or.inr (Or.inl ⟨rfl, Or.inr ?_, rfl⟩)
      show (decode depth a).2.1 - 1 + 1 = (decode depth a).2.1
      omega
    · have hd := decode_encode depth (decode depth a).1 (decode depth a).2.1
        ((decode depth a).2.2 + 1) hax hay hc
      refine ⟨encode_lt depth _ _ _, ?_⟩
      rw [hd]
      exact Or.inr (Or.inr ⟨rfl, rfl, Or.inl rfl⟩)
    · have hd := decode_encode depth (decode depth a).1 (decode depth a).2.1
        ((decode depth a).2.2 - 1) hax hay (by omega)
      refine ⟨encode_lt depth _ _ _, ?_⟩
      rw [hd]
      refine Or.inr (Or.inr ⟨rfl, rfl, Or.inr ?_⟩)
      show (decode depth a).2.2 - 1 + 1 = (decode depth a).2.2
      omega

/-! ## Claim theorems -/

/-- C1: for every coordinate triple (x, y, z) with each coordinate strictly
less than 2^B, decoding the encoded address returns the original triple:
`decode (encode x y z) = (x, y, z)`, where `encode` emits, for bit position
i from B−1 down to 0, bit i of x, then bit i of y, then bit i of z,
MSB first. -/
theorem claim1_decode_encode_roundtrip (B x y z : Nat) (hx : x < 2 ^ B)
    (hy : y < 2 ^ B) (hz : z < 2 ^ B) :
    decode B (encode B x y z) = (x, y, z) :=
  decode_encode B x y z hx hy hz

theorem claim1_witness :
    5 < 2 ^ 3 ∧ 2 < 2 ^ 3 ∧ 6 < 2 ^ 3 ∧
    decode 3 (encode 3 5 2 6) = (5, 2, 6) :=
  ⟨by decide, by decide, by decide,
    claim1_decode_encode_roundtrip 3 5 2 6 (by decide) (by decide) (by decide)⟩

/-- C2 counterexample: the source's `Point` type (`Point<T>(T, T, T)`,
src/rust/src/octree.rs line 76) has no field for a payload reference: the
coordinate-preserving image in `Point` of two spec points that differ only in
their payload reference is one and the same value, so a `Point` cannot carry
the payload reference claimed in addition to its coordinates. -/
theorem claim2_counterexample :
    SpecPoint.toCodePoint ⟨0, 0, 0, 0⟩ = SpecPoint.toCodePoint ⟨0, 0, 0, 1⟩ ∧
    (⟨0, 0, 0, 0⟩ : SpecPoint) ≠ (⟨0, 0, 0, 1⟩ : SpecPoint) := by
  exact ⟨rfl, by decide⟩

/-- C2 (amended): every `Point` held by the tree consists of exactly its
three coordinates of the configured coordinate type, stored by value, and of
nothing else: the projection to the coordinate triple is a bijection, so the
declared `Point` carries no payload reference alongside the coordinates. -/
theorem claim2_point_carries_coordinates_only :
    Function.Bijective (@Point.toTriple Nat) := by
  constructor
  · intro p q h
    cases p
    cases q
    simp only [Point.toTriple, Prod.mk.injEq] at h
    simp [h.1, h.2.1, h.2.2]
  · intro v
    exact ⟨⟨v.1, v.2.1, v.2.2⟩, rfl⟩

/-- C3: construction from bit-width B, depth D and a point sequence fails
with `Overflow` when 3B exceeds the representable address width W, fails with
`InvalidDepth` when D > B (no tree value is produced in either case, so no
storage is observable), and otherwise produces the populated tree: 2^(3D)
buckets, each holding exactly the input points whose leaf prefix addresses
it, in input order. -/
theorem claim3_construction (W B D : Nat) (pts : List (Point Nat)) :
    (W < 3 * B → Octree.new W B D pts = .error .Overflow) ∧
    (3 * B ≤ W → B < D → Octree.new W B D pts = .error .InvalidDepth) ∧
    (3 * B ≤ W → D ≤ B →
      ∃ t, Octree.new W B D pts = .ok t ∧
        t.data.length = 2 ^ (3 * D) ∧
        ∀ i, t.bucket i = pts.filter (fun p => leafIdx B D p = i)) := by
  refine ⟨?_, ?_, ?_⟩
  · intro h
    unfold Octree.new
    rw [if_pos h]
  · intro h1 h2
    unfold Octree.new
    rw [if_neg (by omega), if_pos h2]
  · intro h1 h2
    refine ⟨Octree.build B D pts, ?_, build_length B D pts, ?_⟩
    · unfold Octree.new
      rw [if_neg (by omega), if_neg (by omega)]
    · intro i
      exact build_bucket B D h2 pts i

theorem claim3_witness :
    (Octree.new 64 4 5 ([] : List (Point Nat)) = .error .InvalidDepth) ∧
    (Octree.new 1 1 0 ([] : List (Point Nat)) = .error .Overflow) ∧
    ∃ t, Octree.new 64 3 3 [Point.mk 5 2 6] = .ok t ∧
      t.data.length = 2 ^ (3 * 3) ∧
      ∀ i, t.bucket i = [Point.mk 5 2 6].filter (fun p => leafIdx 3 3 p = i) :=
  ⟨(claim3_construction 64 4 5 []).2.1 (by decide) (by decide),
    (claim3_construction 1 1 0 []).1 (by decide),
    (claim3_construction 64 3 3 [Point.mk 5 2 6]).2.2 (by decide) (by decide)⟩

/-- C4: build is deterministic — two runs of `build` on the same input and
depth are identical, and within one build each bucket holds exactly the
input points addressed to it, in the insertion order of the call (the bucket
is the order-preserving filter of the input sequence). -/
theorem claim4_build_deterministic (B D : Nat) (hBD : D ≤ B)
    (pts : List (Point Nat)) :
    Octree.build B D pts = Octree.build B D pts ∧
    ∀ i, (Octree.build B D pts).bucket i =
      pts.filter (fun p => leafIdx B D p = i) :=
  ⟨rfl, fun i => build_bucket B D hBD pts i⟩

theorem claim4_witness :
    1 ≤ 1 ∧
    (Octree.build 1 1 [Point.mk 0 0 0, Point.mk 1 1 1, Point.mk 0 0 0] =
      Octree.build 1 1 [Point.mk 0 0 0, Point.mk 1 1 1, Point.mk 0 0 0] ∧
    ∀ i, (Octree.build 1 1
        [Point.mk 0 0 0, Point.mk 1 1 1, Point.mk 0 0 0]).bucket i =
      [Point.mk 0 0 0, Point.mk 1 1 1, Point.mk 0 0 0].filter
        (fun p => leafIdx 1 1 p = i)) :=
  ⟨by decide, claim4_build_deterministic 1 1 (by decide)
    [Point.mk 0 0 0, Point.mk 1 1 1, Point.mk 0 0 0]⟩

/-- C6: `encode` fails with `InvalidCoordinate` exactly when at least one of
x, y, z is ≥ 2^B; for all in-range inputs it succeeds and returns the 3B-bit
interleaved address: a value below 2^(3B) whose bit at position 3i carries
bit i of z, at 3i+1 bit i of y, and at 3i+2 bit i of x, for every i < B
(axis order x, y, z from the most significant bit of each group). -/
theorem claim6_encode_checked (B x y z : Nat) :
    (encodeChecked B x y z = .error .InvalidCoordinate ↔
      2 ^ B ≤ x ∨ 2 ^ B ≤ y ∨ 2 ^ B ≤ z) ∧
    (x < 2 ^ B → y < 2 ^ B → z < 2 ^ B →
      ∃ a, encodeChecked B x y z = .ok a ∧ a < 2 ^ (3 * B) ∧
        ∀ i, i < B →
          a / 2 ^ (3 * i) % 2 = z / 2 ^ i % 2 ∧
          a / 2 ^ (3 * i + 1) % 2 = y / 2 ^ i % 2 ∧
          a / 2 ^ (3 * i + 2) % 2 = x / 2 ^ i % 2) := by
  constructor
  · unfold encodeChecked
    split
    case isTrue h => simp [h]
    case isFalse h => simp [h]
  · intro hx hy hz
    refine ⟨encode B x y z, ?_, encode_lt B x y z, ?_⟩
    · unfold encodeChecked
      rw [if_neg (by omega)]
    · intro i hi
      exact encode_bits B x y z i hi

theorem claim6_witness :
    (encodeChecked 3 8 0 0 = .error .InvalidCoordinate ↔
      2 ^ 3 ≤ 8 ∨ 2 ^ 3 ≤ 0 ∨ 2 ^ 3 ≤ 0) ∧
    (5 < 2 ^ 3 ∧ 2 < 2 ^ 3 ∧ 6 < 2 ^ 3) ∧
    (∃ a, encodeChecked 3 5 2 6 = .ok a ∧ a < 2 ^ (3 * 3) ∧
      ∀ i, i < 3 →
        a / 2 ^ (3 * i) % 2 = 6 / 2 ^ i % 2 ∧
        a / 2 ^ (3 * i + 1) % 2 = 2 / 2 ^ i % 2 ∧
        a / 2 ^ (3 * i + 2) % 2 = 5 / 2 ^ i % 2) :=
  ⟨(claim6_encode_checked 3 8 0 0).1, ⟨by decide, by decide, by decide⟩,
    (claim6_encode_checked 3 5 2 6).2 (by decide) (by decide) (by decide)⟩

/-- C8: for depth == D, `query(prefix, depth)` returns exactly the single
bucket addressed by that prefix; for depth < D it returns the concatenation
of all leaf buckets whose address lies in the contiguous range
[prefix · 2^(3(D−depth)), (prefix+1) · 2^(3(D−depth)) − 1] (stated as the
run of 2^(3(D−depth)) consecutive bucket indices starting at
prefix · 2^(3(D−depth))). -/
theorem claim8_query (t : Octree) (hlen : t.data.length = 2 ^ (3 * t.D))
    (pfx depth : Nat) (hdep : depth ≤ t.D) (hpfx : pfx < 2 ^ (3 * depth)) :
    (depth = t.D → t.query pfx depth = t.bucket pfx) ∧
    (depth < t.D → t.query pfx depth =
      (List.range' (pfx * 2 ^ (3 * (t.D - depth)))
        (2 ^ (3 * (t.D - depth)))).flatMap t.bucket) := by
  have hk : 0 < 2 ^ (3 * (t.D - depth)) := Nat.pow_pos (by omega)
  have hbound : (pfx + 1) * 2 ^ (3 * (t.D - depth)) ≤ t.data.length := by
    rw [hlen]
    calc (pfx + 1) * 2 ^ (3 * (t.D - depth))
        ≤ 2 ^ (3 * depth) * 2 ^ (3 * (t.D - depth)) :=
          mul_le_mul_right' (by omega) _
      _ = 2 ^ (3 * t.D) := by
          rw [← pow_add]
          have he : 3 * depth + 3 * (t.D - depth) = 3 * t.D := by omega
          rw [he]
  have hq : t.query pfx depth =
      (List.range' (pfx * 2 ^ (3 * (t.D - depth)))
        (2 ^ (3 * (t.D - depth)))).flatMap t.bucket := by
    unfold Octree.query
    rw [filter_range_div_eq t.data.length (2 ^ (3 * (t.D - depth))) pfx hk
      hbound]
  refine ⟨?_, fun _ => hq⟩
  intro h
  rw [hq, h]
  simp [Nat.sub_self]

theorem claim8_witness :
    ((Octree.build 1 1 [Point.mk 0 1 1]).data.length =
      2 ^ (3 * (Octree.build 1 1 [Point.mk 0 1 1]).D)) ∧
    (0 ≤ (Octree.build 1 1 [Point.mk 0 1 1]).D) ∧
    (0 < 2 ^ (3 * 0)) ∧
    ((0 = (Octree.build 1 1 [Point.mk 0 1 1]).D →
      (Octree.build 1 1 [Point.mk 0 1 1]).query 0 0 =
        (Octree.build 1 1 [Point.mk 0 1 1]).bucket 0) ∧
    (0 < (Octree.build 1 1 [Point.mk 0 1 1]).D →
      (Octree.build 1 1 [Point.mk 0 1 1]).query 0 0 =
        (List.range'
          (0 * 2 ^ (3 * ((Octree.build 1 1 [Point.mk 0 1 1]).D - 0)))
          (2 ^ (3 * ((Octree.build 1 1 [Point.mk 0 1 1]).D - 0)))).flatMap
          (Octree.build 1 1 [Point.mk 0 1 1]).bucket)) :=
  ⟨by decide, by decide, by decide,
    claim8_query (Octree.build 1 1 [Point.mk 0 1 1]) (by decide) 0 0
      (by decide) (by decide)⟩

/-- C10: the bucket array's length is the fixed-width shift expression
`1 << (3 * Depth)` (src/rust/src/octree.rs line 80), so the tree has exactly
2^(3·Depth) buckets precisely for the `u8` depths where 3·Depth is below the
bit width of the shift's integer type (`usize`, 64 bits); for any larger
Depth the masked fixed-width shift does not yield 2^(3·Depth), bounding the
usable subdivision depth at the construction interface. -/
theorem claim10_bucket_count (Depth : Nat) (hu8 : Depth < 2 ^ 8) :
    (3 * Depth < usizeBits → bucketCount Depth = 2 ^ (3 * Depth)) ∧
    (usizeBits ≤ 3 * Depth → bucketCount Depth ≠ 2 ^ (3 * Depth)) := by
  unfold bucketCount shlUsize usizeBits
  constructor
  · intro h
    have h1 : 3 * Depth % 2 ^ 8 = 3 * Depth := Nat.mod_eq_of_lt (by norm_num at h ⊢; omega)
    have h2 : 3 * Depth % 64 = 3 * Depth := Nat.mod_eq_of_lt h
    rw [h1, h2, Nat.one_mul]
    exact Nat.mod_eq_of_lt (Nat.pow_lt_pow_right (by omega) h)
  · intro h
    have hlt : 1 * 2 ^ (3 * Depth % 2 ^ 8 % 64) % 2 ^ 64 < 2 ^ 64 :=
      Nat.mod_lt _ (Nat.pow_pos (by omega))
    have hge : 2 ^ 64 ≤ 2 ^ (3 * Depth) := Nat.pow_le_pow_right (by omega) h
    omega

/-- C5: the depth invariant.  For a reachable tree, (a) every point stored
beneath the node at depth d with prefix `pfx` (the points of all leaf buckets
under it) has an address whose top 3d bits equal `pfx`, and (b) each leaf
bucket at depth D contains exactly the stored points whose address shares
that leaf's 3D-bit prefix. -/
theorem claim5_depth_invariant (t : Octree) (ht : Octree.Reachable t)
    (d pfx : Nat) (hd : d ≤ t.D) :
    (∀ q ∈ t.query pfx d, prefixAt t.B d (addrOf t.B q) = pfx) ∧
    (∀ j q, q ∈ t.bucket j ↔
      q ∈ t.points ∧ prefixAt t.B t.D (addrOf t.B q) = j) := by
  obtain ⟨hBD, hlen, hmem⟩ := reachable_wellFormed t ht
  constructor
  · intro q hq
    unfold Octree.query at hq
    rw [List.mem_flatMap] at hq
    obtain ⟨i, hi, hqi⟩ := hq
    rw [List.mem_filter] at hi
    obtain ⟨hrange, hpred⟩ := hi
    have hpred' : i / 2 ^ (3 * (t.D - d)) = pfx := by simpa using hpred
    have hidx : prefixAt t.B t.D (addrOf t.B q) = i := hmem i q hqi
    rw [← prefixAt_div t.B t.D d (addrOf t.B q) hd hBD, hidx]
    exact hpred'
  · intro j q
    constructor
    · intro hq
      exact ⟨(mem_points_iff t q).mpr ⟨j, hq⟩, hmem j q hq⟩
    · rintro ⟨hpts, hpfx2⟩
      obtain ⟨i, hqi⟩ := (mem_points_iff t q).mp hpts
      have hleaf : leafIdx t.B t.D q = i := hmem i q hqi
      have hleaf' : leafIdx t.B t.D q = j := hpfx2
      have hij : i = j := hleaf.symm.trans hleaf'
      rwa [hij] at hqi

theorem claim5_witness :
    (∀ q ∈ (Octree.build 1 1 [Point.mk 0 0 0, Point.mk 1 0 1]).query 0 0,
      prefixAt 1 0 (addrOf 1 q) = 0) ∧
    (∀ j q, q ∈ (Octree.build 1 1 [Point.mk 0 0 0, Point.mk 1 0 1]).bucket j ↔
      q ∈ (Octree.build 1 1 [Point.mk 0 0 0, Point.mk 1 0 1]).points ∧
        prefixAt 1 1 (addrOf 1 q) = j) :=
  claim5_depth_invariant (Octree.build 1 1 [Point.mk 0 0 0, Point.mk 1 0 1])
    (Octree.Reachable.of_new 64 1 1 [Point.mk 0 0 0, Point.mk 1 0 1]
      (Octree.build 1 1 [Point.mk 0 0 0, Point.mk 1 0 1]) rfl)
    0 0 (by decide)

/-- C7: `remove(point)` removes exactly one matching entry from the point's
bucket when a matching entry is present (the match's multiplicity drops by
one, every other value's multiplicity is unchanged, and all other buckets
are untouched), fails with `NotFound` when it is absent, and a failing call
produces no tree at all, so the caller's tree is exactly what it was before
the call. -/
theorem claim7_remove (t : Octree) (p : Point Nat) :
    (p ∉ t.bucket (leafIdx t.B t.D p) → t.remove p = .error .NotFound) ∧
    (∀ e, t.remove p = .error e →
      e = .NotFound ∧ p ∉ t.bucket (leafIdx t.B t.D p)) ∧
    (p ∈ t.bucket (leafIdx t.B t.D p) →
      ∃ t', t.remove p = .ok t' ∧
        (t'.bucket (leafIdx t.B t.D p)).count p + 1 =
          (t.bucket (leafIdx t.B t.D p)).count p ∧
        (∀ q, q ≠ p → ∀ i, (t'.bucket i).count q = (t.bucket i).count q) ∧
        (∀ i, i ≠ leafIdx t.B t.D p → t'.bucket i = t.bucket i)) := by
  refine ⟨?_, ?_, ?_⟩
  · intro hnot
    unfold Octree.remove
    rw [if_neg hnot]
  · intro e he
    unfold Octree.remove at he
    split at he
    case isTrue => exact absurd he (by simp)
    case isFalse hnot =>
      refine ⟨?_, hnot⟩
      injection he with h
      exact h.symm
  · intro hin
    have hfit : leafIdx t.B t.D p < t.data.length := by
      by_contra hge
      have hempty : t.bucket (leafIdx t.B t.D p) = [] := by
        unfold Octree.bucket
        rw [List.getD_eq_getElem?_getD, List.getElem?_eq_none (by omega)]
        rfl
      rw [hempty] at hin
      simp at hin
    refine ⟨Octree.mk t.B t.D (t.data.set (leafIdx t.B t.D p)
      ((t.bucket (leafIdx t.B t.D p)).erase p)), ?_, ?_, ?_, ?_⟩
    · unfold Octree.remove
      rw [if_pos hin]
    · rw [bucket_setBucket t _ _ hfit, if_pos rfl, List.count_erase_self]
      have hc : 1 ≤ (t.bucket (leafIdx t.B t.D p)).count p :=
        List.one_le_count_iff.mpr hin
      omega
    · intro q hqp i
      rw [bucket_setBucket t _ _ hfit]
      by_cases h : i = leafIdx t.B t.D p
      · rw [if_pos h, List.count_erase_of_ne hqp, h]
      · rw [if_neg h]
    · intro i hi
      rw [bucket_setBucket t _ _ hfit, if_neg hi]

theorem claim7_witness :
    (Point.mk 1 1 1 ∉
      (Octree.build 1 1 [Point.mk 0 0 0]).bucket (leafIdx 1 1 (Point.mk 1 1 1)) →
      (Octree.build 1 1 [Point.mk 0 0 0]).remove (Point.mk 1 1 1) =
        .error .NotFound) ∧
    (∀ e, (Octree.build 1 1 [Point.mk 0 0 0]).remove (Point.mk 1 1 1) =
        .error e →
      e = .NotFound ∧ Point.mk 1 1 1 ∉
        (Octree.build 1 1 [Point.mk 0 0 0]).bucket
          (leafIdx 1 1 (Point.mk 1 1 1))) ∧
    (Point.mk 1 1 1 ∈
      (Octree.build 1 1 [Point.mk 0 0 0]).bucket (leafIdx 1 1 (Point.mk 1 1 1)) →
      ∃ t', (Octree.build 1 1 [Point.mk 0 0 0]).remove (Point.mk 1 1 1) =
          .ok t' ∧
        (t'.bucket (leafIdx 1 1 (Point.mk 1 1 1))).count (Point.mk 1 1 1) + 1 =
          ((Octree.build 1 1 [Point.mk 0 0 0]).bucket
            (leafIdx 1 1 (Point.mk 1 1 1))).count (Point.mk 1 1 1) ∧
        (∀ q, q ≠ Point.mk 1 1 1 → ∀ i, (t'.bucket i).count q =
          ((Octree.build 1 1 [Point.mk 0 0 0]).bucket i).count q) ∧
        (∀ i, i ≠ leafIdx 1 1 (Point.mk 1 1 1) → t'.bucket i =
          (Octree.build 1 1 [Point.mk 0 0 0]).bucket i)) :=
  claim7_remove (Octree.build 1 1 [Point.mk 0 0 0]) (Point.mk 1 1 1)

/-- C9: `faceNeighbors(address, depth)` returns at most 6 addresses, and its
results are exactly the face-adjacent cells: an address `b` is returned iff
`b` is a 3·depth-bit address obtained from the input by changing exactly one
axis's decoded value by ±1 (candidates whose moved axis value would leave
[0, 2^depth − 1] are excluded: boundaries clip and never wrap). -/
theorem claim9_face_neighbors (a depth : Nat) (ha : a < 2 ^ (3 * depth)) :
    (faceNeighbors a depth).length ≤ 6 ∧
    ∀ b, b ∈ faceNeighbors a depth ↔ FaceAdj a depth b := by
  constructor
  · simp only [faceNeighbors]
    split_ifs <;> simp
  · intro b
    exact (mem_faceNeighbors_iff a depth b).trans (faceAdj_iff a depth b ha).symm

theorem claim9_witness :
    0 < 2 ^ (3 * 1) ∧
    ((faceNeighbors 0 1).length ≤ 6 ∧
      ∀ b, b ∈ faceNeighbors 0 1 ↔ FaceAdj 0 1 b) :=
  ⟨by decide, claim9_face_neighbors 0 1 (by decide)⟩

theorem claim10_witness :
    (22 < 2 ^ 8) ∧
    ((3 * 22 < usizeBits → bucketCount 22 = 2 ^ (3 * 22)) ∧
      (usizeBits ≤ 3 * 22 → bucketCount 22 ≠ 2 ^ (3 * 22))) ∧
    ((3 * 7 < usizeBits → bucketCount 7 = 2 ^ (3 * 7)) ∧
      (usizeBits ≤ 3 * 7 → bucketCount 7 ≠ 2 ^ (3 * 7))) :=
  ⟨by decide, claim10_bucket_count 22 (by decide),
    claim10_bucket_count 7 (by decide)⟩

end OctreeSpec
